import Mathlib

/-!
Verification development for the html2tree repository (src/html2tree.py).

The core of the program is:
* a node model (`TagNode` / `DataNode`, here the mutual inductives
  `HNode`/`HForest`, where `HForest` is the ordered children sequence);
* a tree builder (`HTMLTree.html_to_tree`'s token loop together with
  `add_node`, `add_data`, `close_node`, `self_close`, `check_sanity`),
  modelled as a state machine over a zipper state `BState`;
* the pruner (`TagNode.clean` / `DataNode.clean` / `HTMLTree.clean`);
* the text extractor (`TagNode.pure_text` / `DataNode.pure_text` /
  `HTMLTree.pure_text`, the latter applying the whitespace normalisation
  `re.sub(r'\s+', ' ', text).strip()`).

Python sets of attribute-value tokens are modelled as lists of strings:
every operation the source performs on them (set union, set intersection,
truthiness, membership) only depends on membership/emptiness, which the
list model preserves (union is append, intersection is filter, truthiness
is non-emptiness).

Python raising an exception is modelled by an error result; the one place
where the source can block forever (`LifoQueue.get()` on an empty queue in
`close_node`) is modelled by the distinguished result `StepRes.hang`.
-/

/-- Python `\s` whitespace characters (ASCII range), as used by
`str.strip`, `str.split` and the regex `\s+` in `HTMLTree.pure_text`. -/
def isPySpace (c : Char) : Bool :=
  c = ' ' || c = '\t' || c = '\n' || c = '\r' || c = '\x0b' || c = '\x0c'

/-- Python `str.split()` with no argument: split on runs of whitespace,
dropping empty pieces.  Used by `TagNode.__init__` to turn an attribute
value into its token set. -/
def pySplit (s : String) : List String :=
  (s.split isPySpace).filter (fun x => x ≠ "")

/-- Attribute dictionaries `attrs : dict[str, set[str]]` are modelled as
association lists with unique keys (insertion order, later assignment to
an existing key overwrites in place, as for a Python dict). -/
abbrev Attrs := List (String × List String)

/-- Python dict assignment `d[k] = v`: overwrite in place if the key is
present, otherwise append. -/
def dictSet (d : Attrs) (k : String) (v : List String) : Attrs :=
  if (List.any d (fun kv => kv.1 = k)) then
    List.map (fun kv => if kv.1 = k then (k, v) else kv) d
  else
    List.append d [(k, v)]

/-- `TagNode.__init__`: `self.attrs = {attr: set(attr_v.split()) for attr, attr_v in attrs}`. -/
def mkAttrs (l : List (String × String)) : Attrs :=
  l.foldl (fun d kv => dictSet d kv.1 (pySplit kv.2)) []

/-- Python `self.attrs.get(k, set())`. -/
def attrGet (a : Attrs) (k : String) : List String :=
  match List.find? (fun kv => kv.1 = k) a with
  | none => []
  | some kv => kv.2

mutual
/-- The node model: `TagNode(tag, attrs, level, closed, children)` and
`DataNode(data, level)` from src/html2tree.py.  A `DataNode` is always
closed in the source (`closed = True` set in `__init__`), so no flag is
stored for it here. -/
inductive HNode : Type where
  | tag (tagName : String) (attrs : Attrs) (level : Nat) (closed : Bool)
      (children : HForest) : HNode
  | data (text : String) (level : Nat) : HNode

/-- The ordered children sequence of a `TagNode` (a Python list of nodes). -/
inductive HForest : Type where
  | nil : HForest
  | cons (hd : HNode) (tl : HForest) : HForest
end

/-- Append on children sequences (Python `list.append` reached through
`TagNode.add_child`). -/
def HForest.append : HForest → HForest → HForest
  | .nil, ys => ys
  | .cons x xs, ys => .cons x (HForest.append xs ys)

/-- `HTMLNode.tag`: a tag node stores its tag name, a data node stores
the literal string `"data"` (see `DataNode.__init__`). -/
def HNode.tagOf : HNode → String
  | .tag n _ _ _ _ => n
  | .data _ _ => "data"

/-- The attribute dict of a node (`TagNode.attrs`; a `DataNode` has none). -/
def HNode.attrsOf : HNode → Attrs
  | .tag _ a _ _ _ => a
  | .data _ _ => []

/-- The three structural errors raised by the source (spec names in
comments):
* `moreClosing`  : `"More closing tags than starting tags."` — StackUnderflowError;
* `mismatch`     : `"Closing tag doesn't match starting tag."` — MismatchedCloseError;
* `rootNotClosed`: `"Tree root node not closed."` — UnclosedRootError. -/
inductive BuildError : Type where
  | moreClosing : BuildError
  | mismatch : BuildError
  | rootNotClosed : BuildError

/-- A tag node while the tree is being built: the same fields as the
`tag` constructor of `HNode`, with the children collected so far. -/
structure BTag where
  tagName : String
  attrs : Attrs
  level : Nat
  closed : Bool
  children : HForest

/-- Convert a finished builder node to a tree node. -/
def BTag.toNode (t : BTag) : HNode :=
  .tag t.tagName t.attrs t.level t.closed t.children

/-- Builder state of `HTMLTree`: `cur` is `self.pointer` (the node
currently under operation) and `path` is `self.path` (the `LifoQueue` of
open ancestors, most recent first).  In the source the pointer aliases a
node already stored inside its parent's children list; here the state is
the equivalent zipper: each ancestor frame holds its elder children, and
the pending child is re-attached when the pointer moves back up. -/
structure BState where
  cur : BTag
  path : List BTag

/-- `HTMLTree.__init__`: `self.root = TagNode('root')`, empty path,
pointer at the root. -/
def initState : BState :=
  ⟨⟨"root", [], 0, false, .nil⟩, []⟩

/-- Re-attach a finished child at the end of its parent's children list
(the child was appended by `add_node` in the source; the zipper performs
the append when the pointer returns to the parent). -/
def attachChild (p : BTag) (c : BTag) : BTag :=
  { p with children := HForest.append p.children (.cons c.toNode .nil) }

/-- Result of one builder operation: a next state, a raised structural
error, or the source blocking forever (`LifoQueue.get()` on an empty
queue). -/
inductive StepRes : Type where
  | cont (s : BState) : StepRes
  | err (e : BuildError) : StepRes
  | hang : StepRes

/-- `HTMLTree.add_node`: set the new node's level to `pointer.level + 1`,
append it as last child of the pointer, push the pointer on the path and
move the pointer to the new node. -/
def addNode (s : BState) (name : String) (attrs : List (String × String)) : BState :=
  ⟨⟨name, mkAttrs attrs, s.cur.level + 1, false, .nil⟩, s.cur :: s.path⟩

/-- `HTMLTree.add_data`: set the data node's level to `pointer.level + 1`
and append it as last child of the pointer; the pointer does not move. -/
def addData (s : BState) (d : String) : BState :=
  ⟨{ s.cur with
      children := HForest.append s.cur.children (.cons (.data d (s.cur.level + 1)) .nil) },
    s.path⟩

/-- `HTMLTree.close_node`: raise if the pointer is already closed; then
`TagNode.close` raises unless the closing tag equals the pointer's tag;
then `self.pointer = self.path.get()` — on an empty `LifoQueue` this call
blocks forever, modelled by `.hang`. -/
def closeNode (s : BState) (closingTag : String) : StepRes :=
  if s.cur.closed then .err .moreClosing
  else if closingTag = s.cur.tagName then
    match s.path with
    | [] => .hang
    | p :: rest => .cont ⟨attachChild p { s.cur with closed := true }, rest⟩
  else .err .mismatch

/-- `HTMLTree.self_close`: raise if the pointer is already closed; close
it by brute force (set `closed = True`); if its tag is `'root'` stop
without popping; else raise if the path is empty, else pop the path.
(Closing does not change the tag, so testing the tag before or after the
brute-force close is equivalent.) -/
def selfClose (s : BState) : StepRes :=
  if s.cur.closed then .err .moreClosing
  else if s.cur.tagName = "root" then .cont ⟨{ s.cur with closed := true }, s.path⟩
  else
    match s.path with
    | [] => .err .moreClosing
    | p :: rest => .cont ⟨attachChild p { s.cur with closed := true }, rest⟩

/-- The tokenizer events consumed by the loop in `HTMLTree.html_to_tree`
(`'starttag'`, `'endtag'`, `'data'` entries of the parser output; data is
already stripped and non-empty when it reaches the loop). -/
inductive Token : Type where
  | startTag (name : String) (attrs : List (String × String)) : Token
  | endTag (name : String) : Token
  | text (content : String) : Token

/-- `SELF_CLOSING_TAGS` from `HTMLTree.html_to_tree`. -/
def SELF_CLOSING_TAGS : List String :=
  ["img", "area", "base", "br", "col", "command", "embed",
   "hr", "input", "keygen", "link", "menuitem", "meta", "param", "source", "wbr"]

/-- One iteration of the token loop in `HTMLTree.html_to_tree`:
a start tag is added and, when its name is in `SELF_CLOSING_TAGS`,
immediately self-closed; data is appended; an end tag whose name is in
`SELF_CLOSING_TAGS` is skipped, otherwise `close_node` runs. -/
def stepToken (s : BState) : Token → StepRes
  | .startTag n a =>
      let s1 := addNode s n a
      if n ∈ SELF_CLOSING_TAGS then selfClose s1 else .cont s1
  | .text d => .cont (addData s d)
  | .endTag n =>
      if n ∈ SELF_CLOSING_TAGS then .cont s else closeNode s n

/-- Run the token loop from a given state. -/
def runTokens (s : BState) : List Token → StepRes
  | [] => .cont s
  | t :: ts =>
      match stepToken s t with
      | .cont s' => runTokens s' ts
      | .err e => .err e
      | .hang => .hang

/-- The finished tree (`HTMLTree` after building: only `root` remains
relevant; `pointer` and `path` are transient construction state). -/
structure HTMLTree where
  root : HNode

/-- The root object of the tree as seen from a builder state: in the
source every ancestor frame already contains its pending child, so the
root node is recovered by re-attaching the zipper frames bottom-up. -/
def zipRoot (s : BState) : BTag :=
  s.path.foldl (fun c p => attachChild p c) s.cur

/-- Whether `BuildResult` is a finished tree. -/
inductive BuildResult : Type where
  | ok (t : HTMLTree) : BuildResult
  | err (e : BuildError) : BuildResult
  | hang : BuildResult

def BuildResult.isOk : BuildResult → Bool
  | .ok _ => true
  | _ => false

/-- The token-stream part of `HTMLTree.html_to_tree`: run the loop over
the tokens, then `tree.self_close()` once, then `tree.check_sanity()`
(raise `"Tree root node not closed."` unless the root is closed), and
return the tree. -/
def buildTree (toks : List Token) : BuildResult :=
  match runTokens initState toks with
  | .err e => .err e
  | .hang => .hang
  | .cont s =>
      match selfClose s with
      | .err e => .err e
      | .hang => .hang
      | .cont s' =>
          if (zipRoot s').closed then .ok ⟨(zipRoot s').toNode⟩
          else .err .rootNotClosed

mutual
/-- `TagNode.clean` / `DataNode.clean` from the source.  A data node is
always kept.  A tag node is dropped (`none`) when its tag is in
`tags_delete`, or when the Python test
`self.attrs.get('id', set()) | self.attrs.get('class', set()) & set(attrs_delete)`
is truthy — by Python operator precedence `&` binds tighter than `|`, so
the test is `ids ∪ (classes ∩ attrs_delete)`, non-empty (truthy) whenever
the node has any `id` token at all, or a `class` token in `attrs_delete`.
Otherwise the node is kept with its recursively cleaned children (the
`None` results filtered out, order preserved). -/
def cleanNode (tagsDelete attrsDelete : List String) : HNode → Option HNode
  | .data s lv => some (.data s lv)
  | .tag n a lv cl ch =>
      if n ∈ tagsDelete then none
      else if ((attrGet a "id").append
                ((attrGet a "class").filter (fun x => x ∈ attrsDelete))).isEmpty = false
        then none
      else some (.tag n a lv cl (cleanForest tagsDelete attrsDelete ch))

/-- `self.children = [c.clean(...) for c in self.children]` followed by
`self.children = [c for c in self.children if c]` (nodes are truthy
Python objects, `None` is falsy, so this keeps exactly the non-`None`
cleaned children in order). -/
def cleanForest (tagsDelete attrsDelete : List String) : HForest → HForest
  | .nil => .nil
  | .cons x xs =>
      match cleanNode tagsDelete attrsDelete x with
      | none => cleanForest tagsDelete attrsDelete xs
      | some y => .cons y (cleanForest tagsDelete attrsDelete xs)
end

/-- The default `tags_delete` argument of `clean`. -/
def tagsDeleteDefault : List String :=
  ["script", "noscript", "style", "aside", "header", "footer", "nav", "navigation"]

/-- The default `attrs_delete` argument of `clean`. -/
def attrsDeleteDefault : List String :=
  ["menu", "head", "header", "footer", "foot", "nav", "navigation"]

/-- `HTMLTree.clean`: run `self.root.clean(...)` and discard the result.
When the root is kept, `clean` mutated it in place (children filtered),
so the tree now holds the cleaned root; when the root is dropped,
`clean` returned `None` before touching any child, so the tree is left
completely unchanged. -/
def HTMLTree.clean (t : HTMLTree) (tagsDelete attrsDelete : List String) : HTMLTree :=
  match cleanNode tagsDelete attrsDelete t.root with
  | none => t
  | some r => ⟨r⟩

/-- Python `' '.join(l)`. -/
def joinSp : List String → String
  | [] => ""
  | [x] => x
  | x :: y :: xs => x ++ " " ++ joinSp (y :: xs)

mutual
/-- `TagNode.pure_text` / `DataNode.pure_text`: a data node yields its
data; a tag node yields the space-join of its children's pure texts. -/
def pureTextN : HNode → String
  | .data s _ => s
  | .tag _ _ _ _ ch => joinSp (pureTextF ch)

/-- The list comprehension `[c.pure_text() for c in self.children]`. -/
def pureTextF : HForest → List String
  | .nil => []
  | .cons x xs => pureTextN x :: pureTextF xs
end

/-- `re.sub(r'\s+', ' ', text)` on the character list: every maximal run
of whitespace characters becomes a single ASCII space.  The boolean
argument records whether the previous character was whitespace (i.e.
whether we are inside a run that has already emitted its space). -/
def collapseWS : Bool → List Char → List Char
  | _, [] => []
  | prev, c :: rest =>
      if isPySpace c then
        if prev then collapseWS true rest else ' ' :: collapseWS true rest
      else c :: collapseWS false rest

/-- Remove trailing whitespace characters. -/
def stripRight (l : List Char) : List Char :=
  (l.reverse.dropWhile isPySpace).reverse

/-- Python `str.strip()`: remove leading and trailing whitespace. -/
def stripBoth (l : List Char) : List Char :=
  stripRight (l.dropWhile isPySpace)

/-- `re.sub(r'\s+', ' ', text).strip()` from `HTMLTree.pure_text`. -/
def pyNormalize (s : String) : String :=
  ⟨stripBoth (collapseWS false s.data)⟩

/-- `HTMLTree.pure_text`: the root's pure text, whitespace-normalised. -/
def HTMLTree.pureText (t : HTMLTree) : String :=
  pyNormalize (pureTextN t.root)

mutual
/-- Recursively all-closed: every tag node in the subtree (including the
node itself) has `closed = true`; data nodes are always closed. -/
def allClosedN : HNode → Bool
  | .data _ _ => true
  | .tag _ _ _ cl ch => cl && allClosedF ch

def allClosedF : HForest → Bool
  | .nil => true
  | .cons x xs => allClosedN x && allClosedF xs
end

mutual
/-- Modelled from the spec (claim C8): the document-order list of text
leaves of a node — a data node is one leaf, a tag node contributes the
leaves of its children in order. -/
def specTextLeaves : HNode → List String
  | .data s _ => [s]
  | .tag _ _ _ _ ch => specTextLeavesF ch

def specTextLeavesF : HForest → List String
  | .nil => []
  | .cons x xs => specTextLeaves x ++ specTextLeavesF xs
end

/-- Modelled from the spec (claim C1): the removal condition as the spec
states it — the tag name is in `tagDeny`, or the union of the `id` and
`class` token sets meets `attrDeny`. -/
def specDropCond (n : HNode) (tagDeny attrDeny : List String) : Bool :=
  match n with
  | .data _ _ => false
  | .tag nm a _ _ _ =>
      decide (nm ∈ tagDeny) ||
        ((attrGet a "id").append (attrGet a "class")).any (fun x => x ∈ attrDeny)

/-- Scenario 1 token stream:
`StartTag("div",[]), Text("This is a test text."), EndTag("div")`. -/
def scenario1Tokens : List Token :=
  [.startTag "div" [], .text "This is a test text.", .endTag "div"]

/-- The tree the builder produces for `scenario1Tokens`:
root → div → data, all closed, levels 0/1/2. -/
def scenario1Tree : HTMLTree :=
  ⟨.tag "root" [] 0 true
    (.cons (.tag "div" [] 1 true (.cons (.data "This is a test text." 2) .nil)) .nil)⟩

/-- Scenario 3 token stream: `StartTag("img",[("src","x.png")]), EndTag("div")`. -/
def scenario3Tokens : List Token :=
  [.startTag "img" [("src", "x.png")], .endTag "div"]

/-- Scenario 4 token stream:
`StartTag("div",[]), StartTag("footer",[]), Text("footer text"), EndTag("footer")`,
with end of stream reached while `div` is still open. -/
def scenario4Tokens : List Token :=
  [.startTag "div" [], .startTag "footer" [], .text "footer text", .endTag "footer"]

/-- Scenario 5 token stream: `StartTag("p",[]), EndTag("p"), EndTag("p")`. -/
def scenario5Tokens : List Token :=
  [.startTag "p" [], .endTag "p", .endTag "p"]

/-- A `TagNode` named `div` whose only attribute is `id="x"`: its name is
not in the default `tags_delete`, and its single id token `"x"` is not in
the default `attrs_delete`. -/
def plainIdNode : HNode := .tag "div" [("id", ["x"])] 0 false .nil

/-- A tree consisting of a closed root only. -/
def rootOnlyTree : HTMLTree := ⟨.tag "root" [] 0 true .nil⟩

/-- A builder frame (the pointer or an ancestor on the path) is well
formed when it is still open and all subtrees already finished inside it
are recursively closed. -/
def frameOK (f : BTag) : Prop := f.closed = false ∧ allClosedF f.children = true

/-- Builder-state invariant maintained by the token loop: the pointer and
every ancestor on the path are open, and everything already attached
below them is recursively closed. -/
def stateInv (s : BState) : Prop := frameOK s.cur ∧ ∀ f ∈ s.path, frameOK f

/-- Maximal runs of non-whitespace characters, in order (the words of the
string, in the sense of the whitespace normalisation). -/
def words : List Char → List (List Char)
  | [] => []
  | c :: rest =>
      if isPySpace c then words rest
      else (c :: rest.takeWhile (fun x => !isPySpace x)) ::
        words (rest.dropWhile (fun x => !isPySpace x))
termination_by l => l.length
decreasing_by
all_goals simp only [List.length_cons]
· exact Nat.lt_succ_self _
· exact Nat.lt_succ_of_le (List.dropWhile_sublist _).length_le

/-- Join a list of words with single spaces. -/
def joinWords : List (List Char) → List Char
  | [] => []
  | [w] => w
  | w :: v :: ws => w ++ ' ' :: joinWords (v :: ws)

/-- Character-level version of `joinSp` (Python `' '.join`). -/
def joinChars : List (List Char) → List Char
  | [] => []
  | [w] => w
  | w :: v :: ws => w ++ ' ' :: joinChars (v :: ws)

/-- C1: the claim fails on the code.  `TagNode.clean` drops `plainIdNode`
(returns `None`) although the spec condition — the union of its id and
class token sets meets `attrDeny` — is false: by Python operator
precedence the source tests `ids ∪ (classes ∩ attrs_delete)`, which is
truthy for any node with a non-empty `id` attribute, contradicting the
function's own docstring ("if it has an attribute value to be deleted"). -/
theorem clean_drops_plain_id :
    cleanNode tagsDeleteDefault attrsDeleteDefault plainIdNode = none ∧
      specDropCond plainIdNode tagsDeleteDefault attrsDeleteDefault = false :=
  ⟨rfl, rfl⟩

/-- C2 counterexample: on `scenario4Tokens` the build does not succeed,
contrary to the claim that `checkSanity` passes with no error. -/
theorem scenario4_not_ok : (buildTree scenario4Tokens).isOk = false := rfl

/-- C2 (amended): on `scenario4Tokens` the build fails with
`UnclosedRootError`: the single forced `self_close` at end of stream
closes only the innermost open element (`div`), it does not walk up the
stack, so the root is still open when `check_sanity` runs. -/
theorem scenario4_unclosed_root :
    buildTree scenario4Tokens = .err .rootNotClosed := rfl

/-- C3: the claim is right and the code is wrong.  On the token stream
`[EndTag("root")]` the cursor is the unclosed root, the tag name matches,
so `close_node` closes the root and then calls `self.path.get()` on the
empty `LifoQueue`, which blocks forever instead of raising
`StackUnderflowError` (the guard that raises "More closing tags than
starting tags." exists in the same function, and `self_close` checks
`path.empty()` first — the blocking `get` is a slip). -/
theorem close_root_hangs : buildTree [Token.endTag "root"] = .hang := rfl

/-- C4: on `scenario5Tokens` the second `EndTag("p")` reaches
`close_node` with the cursor back at the (unclosed) root, and the
name-mismatch check in `TagNode.close` fires first: the build fails with
`MismatchedCloseError`, not `StackUnderflowError`. -/
theorem double_close_mismatch :
    buildTree scenario5Tokens = .err .mismatch := rfl

/-- C5: on `scenario3Tokens` the void element `img` self-closes
immediately after opening, the cursor returns to the root, and the
subsequent `EndTag("div")` does not match the root's name `"root"`:
the build fails with `MismatchedCloseError`. -/
theorem void_then_close_mismatch :
    buildTree scenario3Tokens = .err .mismatch := rfl

/-- C6: an `EndTag(name)` event whose name is in the void-element set has
no effect at all on the builder state: the loop skips `close_node`
entirely, so no node is closed, the cursor and path are unchanged, and no
error is raised on account of the event. -/
theorem void_end_tag_noop (s : BState) (name : String)
    (h : name ∈ SELF_CLOSING_TAGS) : stepToken s (.endTag name) = .cont s := by
  simp [stepToken, h]

/-- Witness for C6 at a concrete input: `EndTag("img")` on the initial
state is a no-op. -/
theorem void_end_tag_noop_w :
    stepToken initState (Token.endTag "img") = .cont initState :=
  void_end_tag_noop initState "img" (by decide)

mutual
/-- The drop condition of `clean` depends only on the node's own tag and
attributes, which `clean` never changes; so cleaning a node that survived
a clean is the identity. -/
theorem cleanNode_idem (D A : List String) :
    ∀ n m, cleanNode D A n = some m → cleanNode D A m = some m
  | .data s lv, m, h => by
      simp only [cleanNode, Option.some.injEq] at h
      subst h; rfl
  | .tag n a lv cl ch, m, h => by
      simp only [cleanNode] at h
      split at h
      next hn => exact absurd h (by simp)
      next hn =>
        split at h
        next ha => exact absurd h (by simp)
        next ha =>
          simp only [Option.some.injEq] at h
          subst h
          simp only [cleanNode, if_neg hn, if_neg ha]
          rw [cleanForest_idem D A ch]

theorem cleanForest_idem (D A : List String) :
    ∀ ch, cleanForest D A (cleanForest D A ch) = cleanForest D A ch
  | .nil => rfl
  | .cons x xs => by
      cases hx : cleanNode D A x with
      | none => simp [cleanForest, hx, cleanForest_idem D A xs]
      | some y =>
          have hy := cleanNode_idem D A x y hx
          simp [cleanForest, hx, hy, cleanForest_idem D A xs]
end

/-- C7: pruning is idempotent — applying `HTMLTree.clean` a second time
with the same removal sets leaves the result of the first application
unchanged. -/
theorem clean_idempotent (t : HTMLTree) (D A : List String) :
    HTMLTree.clean (HTMLTree.clean t D A) D A = HTMLTree.clean t D A := by
  cases h : cleanNode D A t.root with
  | none => simp [HTMLTree.clean, h]
  | some r =>
      have hr := cleanNode_idem D A t.root r h
      simp [HTMLTree.clean, h, hr]

/-- `clean` never changes a kept node's tag name or attribute dict. -/
theorem cleanNode_preserves_head (D A : List String) (n m : HNode)
    (h : cleanNode D A n = some m) : m.tagOf = n.tagOf ∧ m.attrsOf = n.attrsOf := by
  cases n with
  | data s lv =>
      simp only [cleanNode, Option.some.injEq] at h
      subst h; exact ⟨rfl, rfl⟩
  | tag nm a lv cl ch =>
      simp only [cleanNode] at h
      split at h
      next => exact absurd h (by simp)
      next =>
        split at h
        next => exact absurd h (by simp)
        next =>
          simp only [Option.some.injEq] at h
          subst h; exact ⟨rfl, rfl⟩

/-- C10: the tree-level `clean` never removes or replaces the root node —
`HTMLTree.clean` discards the return value of `root.clean(...)`, so if
the root itself matches the removal criteria (`root.clean` returns
`None`, which happens before any child is visited) the whole tree is left
completely unchanged; and in every case the root keeps its tag name and
attributes. -/
theorem clean_keeps_root (t : HTMLTree) (D A : List String) :
    (cleanNode D A t.root = none → HTMLTree.clean t D A = t) ∧
      (HTMLTree.clean t D A).root.tagOf = t.root.tagOf ∧
      (HTMLTree.clean t D A).root.attrsOf = t.root.attrsOf := by
  cases h : cleanNode D A t.root with
  | none => simp [HTMLTree.clean, h]
  | some r =>
      refine ⟨fun hc => absurd hc (by simp), ?_, ?_⟩
      · simp only [HTMLTree.clean, h]
        exact (cleanNode_preserves_head D A t.root r h).1
      · simp only [HTMLTree.clean, h]
        exact (cleanNode_preserves_head D A t.root r h).2

/-- Witness for C10 at a concrete input: with `tags_delete = ["root"]`
the root itself matches, and the tree is returned unchanged. -/
theorem clean_keeps_root_w :
    HTMLTree.clean rootOnlyTree ["root"] [] = rootOnlyTree :=
  (clean_keeps_root rootOnlyTree ["root"] []).1 rfl

theorem allClosedF_append : ∀ xs ys : HForest,
    allClosedF (HForest.append xs ys) = (allClosedF xs && allClosedF ys)
  | .nil, ys => by simp [HForest.append, allClosedF]
  | .cons x xs, ys => by
      simp [HForest.append, allClosedF, allClosedF_append xs ys, Bool.and_assoc]

theorem stateInv_init : stateInv initState :=
  ⟨⟨rfl, rfl⟩, fun f hf => absurd hf (by simp [initState])⟩

theorem stateInv_addNode (s : BState) (n : String) (a : List (String × String))
    (h : stateInv s) : stateInv (addNode s n a) := by
  refine ⟨⟨rfl, rfl⟩, fun f hf => ?_⟩
  rcases List.mem_cons.mp hf with he | hm
  · exact he ▸ h.1
  · exact h.2 f hm

theorem stateInv_addData (s : BState) (d : String) (h : stateInv s) :
    stateInv (addData s d) := by
  refine ⟨⟨h.1.1, ?_⟩, h.2⟩
  simp [addData, allClosedF_append, allClosedF, allClosedN, h.1.2]

theorem attachChild_closed (p c : BTag) : (attachChild p c).closed = p.closed := rfl

theorem frameOK_attach (p c : BTag) (hp : frameOK p) (hc : c.closed = true)
    (hcc : allClosedF c.children = true) : frameOK (attachChild p c) := by
  refine ⟨hp.1, ?_⟩
  simp [attachChild, allClosedF_append, allClosedF, allClosedN, BTag.toNode,
    hp.2, hc, hcc]

theorem stateInv_closeNode (s : BState) (tg : String) (s' : BState)
    (h : stateInv s) (hc : closeNode s tg = .cont s') : stateInv s' := by
  unfold closeNode at hc
  split at hc
  next => exact absurd hc (by simp)
  next =>
    split at hc
    next =>
      cases hpath : s.path with
      | nil => rw [hpath] at hc; exact absurd hc (by simp)
      | cons p rest =>
          rw [hpath] at hc
          cases hc
          refine ⟨frameOK_attach p _ (h.2 p (by rw [hpath]; exact List.mem_cons_self p rest))
            rfl h.1.2, fun f hf => h.2 f ?_⟩
          rw [hpath]; exact List.mem_cons_of_mem p hf
    next => exact absurd hc (by simp)

theorem stateInv_selfClose (s : BState) (s' : BState) (h : stateInv s)
    (hroot : s.cur.tagName ≠ "root") (hc : selfClose s = .cont s') : stateInv s' := by
  unfold selfClose at hc
  rw [if_neg (by simp [h.1.1])] at hc
  rw [if_neg hroot] at hc
  cases hpath : s.path with
  | nil => rw [hpath] at hc; exact absurd hc (by simp)
  | cons p rest =>
      rw [hpath] at hc
      cases hc
      refine ⟨frameOK_attach p _ (h.2 p (by rw [hpath]; exact List.mem_cons_self p rest))
        rfl h.1.2, fun f hf => h.2 f ?_⟩
      rw [hpath]; exact List.mem_cons_of_mem p hf

theorem root_not_void : "root" ∉ SELF_CLOSING_TAGS := by decide

theorem stateInv_step (s s' : BState) (t : Token) (h : stateInv s)
    (hc : stepToken s t = .cont s') : stateInv s' := by
  cases t with
  | startTag n a =>
      simp only [stepToken] at hc
      split at hc
      next hv =>
        refine stateInv_selfClose (addNode s n a) s' (stateInv_addNode s n a h) ?_ hc
        intro he
        exact root_not_void (he ▸ hv)
      next hv =>
        cases hc
        exact stateInv_addNode s n a h
  | text d =>
      simp only [stepToken] at hc
      cases hc
      exact stateInv_addData s d h
  | endTag n =>
      simp only [stepToken] at hc
      split at hc
      next =>
        cases hc
        exact h
      next => exact stateInv_closeNode s n s' h hc

theorem stateInv_run : ∀ (toks : List Token) (s s' : BState), stateInv s →
    runTokens s toks = .cont s' → stateInv s'
  | [], s, s', h, hr => by cases hr; exact h
  | t :: ts, s, s', h, hr => by
      simp only [runTokens] at hr
      cases hst : stepToken s t with
      | cont s1 =>
          rw [hst] at hr
          exact stateInv_run ts s1 s' (stateInv_step s s1 t h hst) hr
      | err e => rw [hst] at hr; exact absurd hr (by simp)
      | hang => rw [hst] at hr; exact absurd hr (by simp)

/-- Folding the zipper up from an open starting node through open frames
keeps the resulting root object open. -/
theorem zip_closed_of_start : ∀ (l : List BTag) (c : BTag), c.closed = false →
    (∀ f ∈ l, f.closed = false) →
    (l.foldl (fun acc p => attachChild p acc) c).closed = false
  | [], c, hc, _ => hc
  | p :: rest, c, _, hf =>
      zip_closed_of_start rest (attachChild p c)
        ((attachChild_closed p c).trans (hf p (by simp)))
        (fun f h => hf f (by simp [h]))

/-- If the final forced `self_close` leaves the root object closed, then
the whole returned tree is recursively closed. -/
theorem selfClose_final (s s2 : BState) (hs : stateInv s)
    (hsc : selfClose s = .cont s2) (hcl : (zipRoot s2).closed = true) :
    allClosedN (zipRoot s2).toNode = true := by
  unfold selfClose at hsc
  rw [if_neg (by simp [hs.1.1])] at hsc
  split at hsc
  next hroot =>
    cases hsc
    cases hpath : s.path with
    | nil =>
        simp only [zipRoot, hpath, List.foldl_nil]
        simp [BTag.toNode, allClosedN, hs.1.2]
    | cons p rest =>
        exfalso
        have hz : (zipRoot ⟨{ s.cur with closed := true }, s.path⟩).closed = false := by
          simp only [zipRoot, hpath, List.foldl_cons]
          refine zip_closed_of_start rest _ ?_ ?_
          · exact (attachChild_closed p _).trans
              ((hs.2 p (by rw [hpath]; exact List.mem_cons_self p rest)).1)
          · exact fun f hf => (hs.2 f (by rw [hpath]; exact List.mem_cons_of_mem p hf)).1
        rw [hcl] at hz
        exact Bool.noConfusion hz
  next hroot =>
    cases hpath : s.path with
    | nil => rw [hpath] at hsc; exact absurd hsc (by simp)
    | cons p rest =>
        rw [hpath] at hsc
        cases hsc
        exfalso
        have hz : (zipRoot ⟨attachChild p { s.cur with closed := true }, rest⟩).closed = false := by
          simp only [zipRoot]
          refine zip_closed_of_start rest _ ?_ ?_
          · exact (attachChild_closed p _).trans
              ((hs.2 p (by rw [hpath]; exact List.mem_cons_self p rest)).1)
          · exact fun f hf => (hs.2 f (by rw [hpath]; exact List.mem_cons_of_mem p hf)).1
        rw [hcl] at hz
        exact Bool.noConfusion hz

/-- C9: balance invariant — whenever `buildTree` succeeds, every
`TagNode` reachable from the root of the returned tree (the root
included) has `closed = true`. -/
theorem build_all_closed : ∀ (toks : List Token) (t : HTMLTree),
    buildTree toks = .ok t → allClosedN t.root = true := by
  intro toks t hb
  cases hrun : runTokens initState toks with
  | err e => simp only [buildTree, hrun] at hb; exact absurd hb (by simp)
  | hang => simp only [buildTree, hrun] at hb; exact absurd hb (by simp)
  | cont s =>
      have hs : stateInv s := stateInv_run toks initState s stateInv_init hrun
      cases hsc : selfClose s with
      | err e => simp only [buildTree, hrun, hsc] at hb; exact absurd hb (by simp)
      | hang => simp only [buildTree, hrun, hsc] at hb; exact absurd hb (by simp)
      | cont s2 =>
          simp only [buildTree, hrun, hsc] at hb
          split at hb
          next hcl =>
            cases hb
            exact selfClose_final s s2 hs hsc hcl
          next => exact absurd hb (by simp)

/-- Witness for C9 at a concrete input: the Scenario 1 stream builds
`scenario1Tree`, and every tag node in it is closed. -/
theorem build_all_closed_w :
    buildTree scenario1Tokens = .ok scenario1Tree ∧
      allClosedN scenario1Tree.root = true :=
  ⟨rfl, build_all_closed scenario1Tokens scenario1Tree rfl⟩

theorem length_dropWhile_le (p : Char → Bool) : ∀ l : List Char,
    (l.dropWhile p).length ≤ l.length
  | [] => Nat.le_refl _
  | c :: t => by
      rw [List.dropWhile_cons]
      split
      · exact Nat.le_trans (length_dropWhile_le p t) (Nat.le_succ _)
      · exact Nat.le_refl _

theorem all_takeWhile_append (p : Char → Bool) :
    ∀ (x y : List Char), x.all p = true → (x ++ y).takeWhile p = x ++ y.takeWhile p
  | [], y, _ => rfl
  | c :: x, y, h => by
      rw [List.all_cons, Bool.and_eq_true] at h
      rw [List.cons_append, List.takeWhile_cons, if_pos h.1,
        all_takeWhile_append p x y h.2, List.cons_append]

theorem all_dropWhile_append (p : Char → Bool) :
    ∀ (x y : List Char), x.all p = true → (x ++ y).dropWhile p = y.dropWhile p
  | [], y, _ => rfl
  | c :: x, y, h => by
      rw [List.all_cons, Bool.and_eq_true] at h
      rw [List.cons_append, List.dropWhile_cons, if_pos h.1]
      exact all_dropWhile_append p x y h.2

theorem pos_takeWhile_append (p : Char → Bool) :
    ∀ (x y : List Char), x.dropWhile p ≠ [] → (x ++ y).takeWhile p = x.takeWhile p
  | [], _, h => absurd rfl h
  | c :: x, y, h => by
      rw [List.dropWhile_cons] at h
      by_cases hc : p c = true
      · rw [if_pos hc] at h
        rw [List.cons_append, List.takeWhile_cons, if_pos hc, List.takeWhile_cons, if_pos hc,
          pos_takeWhile_append p x y h]
      · rw [List.cons_append, List.takeWhile_cons, if_neg hc, List.takeWhile_cons, if_neg hc]

theorem pos_dropWhile_append (p : Char → Bool) :
    ∀ (x y : List Char), x.dropWhile p ≠ [] → (x ++ y).dropWhile p = x.dropWhile p ++ y
  | [], _, h => absurd rfl h
  | c :: x, y, h => by
      by_cases hc : p c = true
      · rw [List.dropWhile_cons, if_pos hc] at h
        simp only [List.cons_append, List.dropWhile_cons, if_pos hc]
        exact pos_dropWhile_append p x y h
      · simp only [List.cons_append, List.dropWhile_cons, if_neg hc]

theorem dropWhile_head_false (p : Char → Bool) :
    ∀ (l : List Char) (c : Char) (t : List Char), l.dropWhile p = c :: t → p c = false
  | [], _, _, h => by cases h
  | a :: l, c, t, h => by
      rw [List.dropWhile_cons] at h
      by_cases ha : p a = true
      · rw [if_pos ha] at h
        exact dropWhile_head_false p l c t h
      · rw [if_neg ha] at h
        cases h
        simpa using ha

theorem all_takeWhile_self (p : Char → Bool) : ∀ l : List Char,
    l.all p = true → l.takeWhile p = l
  | [], _ => rfl
  | c :: l, h => by
      rw [List.all_cons, Bool.and_eq_true] at h
      rw [List.takeWhile_cons, if_pos h.1, all_takeWhile_self p l h.2]

theorem takeWhile_all (p : Char → Bool) : ∀ l : List Char, (l.takeWhile p).all p = true
  | [] => rfl
  | c :: l => by
      rw [List.takeWhile_cons]
      by_cases hc : p c = true
      · rw [if_pos hc, List.all_cons, Bool.and_eq_true]
        exact ⟨hc, takeWhile_all p l⟩
      · rw [if_neg hc]; rfl

theorem words_nil : words [] = [] := by simp [words]

theorem words_cons_sp (c : Char) (r : List Char) (h : isPySpace c = true) :
    words (c :: r) = words r := by
  rw [words, if_pos h]

theorem words_cons_nsp (c : Char) (r : List Char) (h : isPySpace c = false) :
    words (c :: r) = (c :: r.takeWhile (fun x => !isPySpace x)) ::
      words (r.dropWhile (fun x => !isPySpace x)) := by
  rw [words, if_neg (by simp [h])]

theorem words_dropWhile_sp : ∀ r : List Char, words (r.dropWhile isPySpace) = words r
  | [] => rfl
  | c :: r => by
      by_cases hc : isPySpace c = true
      · rw [List.dropWhile_cons, if_pos hc, words_dropWhile_sp r, words_cons_sp c r hc]
      · rw [List.dropWhile_cons, if_neg hc]

theorem sp_space : isPySpace ' ' = true := by decide

theorem words_append_space : ∀ (a b : List Char),
    words (a ++ ' ' :: b) = words a ++ words b
  | [], b => by
      rw [List.nil_append, words_cons_sp ' ' b sp_space, words_nil, List.nil_append]
  | c :: a, b => by
      by_cases hc : isPySpace c = true
      · rw [List.cons_append, words_cons_sp c _ hc, words_cons_sp c a hc]
        exact words_append_space a b
      · have hc' : isPySpace c = false := by simpa using hc
        rw [List.cons_append, words_cons_nsp c _ hc', words_cons_nsp c a hc']
        by_cases hall : a.dropWhile (fun x => !isPySpace x) = []
        · have hallp : a.all (fun x => !isPySpace x) = true := by
            rw [List.all_eq_true]
            exact List.dropWhile_eq_nil_iff.mp hall
          rw [all_takeWhile_append _ a _ hallp, all_dropWhile_append _ a _ hallp]
          rw [List.takeWhile_cons, if_neg (by simp [sp_space]),
            List.dropWhile_cons, if_neg (by simp [sp_space])]
          rw [words_cons_sp ' ' b sp_space, hall, words_nil,
            all_takeWhile_self _ a hallp]
          simp
        · rw [pos_takeWhile_append _ a _ hall, pos_dropWhile_append _ a _ hall]
          cases hD : a.dropWhile (fun x => !isPySpace x) with
          | nil => exact absurd hD hall
          | cons d D' =>
              have hd : isPySpace d = true := by
                simpa using dropWhile_head_false (fun x => !isPySpace x) a d D' hD
              rw [List.cons_append, words_cons_sp d _ hd,
                words_append_space D' b, words_cons_sp d D' hd]
              simp
termination_by a _ => a.length
decreasing_by
all_goals simp only [List.length_cons]
· exact Nat.lt_succ_self _
· have h1 := length_dropWhile_le (fun x => !isPySpace x) a
  rw [hD] at h1
  simp only [List.length_cons] at h1
  omega

theorem collapseWS_true_sp (c : Char) (r : List Char) (h : isPySpace c = true) :
    collapseWS true (c :: r) = collapseWS true r := by
  simp [collapseWS, h]

theorem collapseWS_false_sp (c : Char) (r : List Char) (h : isPySpace c = true) :
    collapseWS false (c :: r) = ' ' :: collapseWS true r := by
  simp [collapseWS, h]

theorem collapseWS_nsp (b : Bool) (c : Char) (r : List Char) (h : isPySpace c = false) :
    collapseWS b (c :: r) = c :: collapseWS false r := by
  simp [collapseWS, h]

theorem collapseWS_true_eq : ∀ l : List Char,
    collapseWS true l = collapseWS false (l.dropWhile isPySpace)
  | [] => rfl
  | c :: l => by
      by_cases hc : isPySpace c = true
      · rw [collapseWS_true_sp c l hc, List.dropWhile_cons, if_pos hc]
        exact collapseWS_true_eq l
      · have hc' : isPySpace c = false := by simpa using hc
        rw [collapseWS_nsp true c l hc', List.dropWhile_cons, if_neg hc,
          collapseWS_nsp false c l hc']

theorem collapseWS_false_all_nsp : ∀ (A y : List Char),
    A.all (fun x => !isPySpace x) = true →
    collapseWS false (A ++ y) = A ++ collapseWS false y
  | [], _, _ => rfl
  | c :: A, y, h => by
      rw [List.all_cons, Bool.and_eq_true] at h
      have hc : isPySpace c = false := by simpa using h.1
      rw [List.cons_append, collapseWS_nsp false c _ hc,
        collapseWS_false_all_nsp A y h.2, List.cons_append]

theorem collapseWS_false_self : ∀ A : List Char,
    A.all (fun x => !isPySpace x) = true → collapseWS false A = A := by
  intro A h
  have := collapseWS_false_all_nsp A [] h
  simpa [collapseWS] using this

theorem stripRight_nil : stripRight [] = [] := rfl

theorem stripRight_cons_nsp (c : Char) (x : List Char) (h : isPySpace c = false) :
    stripRight (c :: x) = c :: stripRight x := by
  unfold stripRight
  rw [List.reverse_cons]
  by_cases hd : x.reverse.dropWhile isPySpace = []
  · have hall : x.reverse.all isPySpace = true := by
      rw [List.all_eq_true]
      exact List.dropWhile_eq_nil_iff.mp hd
    rw [all_dropWhile_append isPySpace x.reverse [c] hall, hd]
    rw [List.dropWhile_cons, if_neg (by simp [h])]
    simp
  · rw [pos_dropWhile_append isPySpace x.reverse [c] hd, List.reverse_append]
    simp

theorem stripRight_all_nsp : ∀ A : List Char,
    A.all (fun x => !isPySpace x) = true → stripRight A = A
  | [], _ => rfl
  | c :: A, h => by
      rw [List.all_cons, Bool.and_eq_true] at h
      have hc : isPySpace c = false := by simpa using h.1
      rw [stripRight_cons_nsp c A hc, stripRight_all_nsp A h.2]

theorem stripRight_trailing_space (x : List Char) :
    stripRight (x ++ [' ']) = stripRight x := by
  unfold stripRight
  rw [List.reverse_append]
  rw [show ([' '] : List Char).reverse = [' '] from rfl]
  rw [show (([' '] : List Char) ++ x.reverse) = ' ' :: x.reverse from rfl]
  rw [List.dropWhile_cons, if_pos sp_space]

theorem stripRight_append_keep (x y : List Char) (h : stripRight y ≠ []) :
    stripRight (x ++ y) = x ++ stripRight y := by
  unfold stripRight at h ⊢
  have hy : y.reverse.dropWhile isPySpace ≠ [] := by
    intro he
    rw [he] at h
    exact h rfl
  rw [List.reverse_append, pos_dropWhile_append isPySpace y.reverse x.reverse hy,
    List.reverse_append, List.reverse_reverse]

theorem stripBoth_cons_sp (c : Char) (x : List Char) (h : isPySpace c = true) :
    stripBoth (c :: x) = stripBoth x := by
  unfold stripBoth
  rw [List.dropWhile_cons, if_pos h]

theorem stripBoth_cons_nsp (c : Char) (x : List Char) (h : isPySpace c = false) :
    stripBoth (c :: x) = c :: stripRight x := by
  unfold stripBoth
  rw [List.dropWhile_cons, if_neg (by simp [h])]
  exact stripRight_cons_nsp c x h

/-- Key normalisation lemma: `re.sub(r'\s+', ' ', ·).strip()` equals the
single-space join of the maximal non-whitespace runs. -/
theorem normal_eq_joinWords : ∀ l : List Char,
    stripBoth (collapseWS false l) = joinWords (words l)
  | [] => by rw [words_nil]; rfl
  | c :: r => by
      by_cases hc : isPySpace c = true
      · rw [collapseWS_false_sp c r hc, stripBoth_cons_sp ' ' _ sp_space,
          collapseWS_true_eq r, normal_eq_joinWords (r.dropWhile isPySpace),
          words_dropWhile_sp r, words_cons_sp c r hc]
      · have hc' : isPySpace c = false := by simpa using hc
        rw [collapseWS_nsp false c r hc', stripBoth_cons_nsp c _ hc',
          words_cons_nsp c r hc']
        have hsplit := List.takeWhile_append_dropWhile (p := fun x => !isPySpace x) (l := r)
        have hallA := takeWhile_all (fun x => !isPySpace x) r
        cases hD : r.dropWhile (fun x => !isPySpace x) with
        | nil =>
            have hallr : r.all (fun x => !isPySpace x) = true := by
              rw [List.all_eq_true]
              exact List.dropWhile_eq_nil_iff.mp hD
            rw [collapseWS_false_self r hallr, stripRight_all_nsp r hallr,
              words_nil, all_takeWhile_self _ r hallr]
            rfl
        | cons d D' =>
            have hd : isPySpace d = true := by
              simpa using dropWhile_head_false (fun x => !isPySpace x) r d D' hD
            rw [hD] at hsplit
            have hCr : collapseWS false r =
                (r.takeWhile (fun x => !isPySpace x)) ++
                  ' ' :: collapseWS false (D'.dropWhile isPySpace) := by
              conv_lhs => rw [← hsplit]
              rw [collapseWS_false_all_nsp _ _ hallA,
                collapseWS_false_sp d D' hd, collapseWS_true_eq D']
            rw [hCr, words_cons_sp d D' hd, ← words_dropWhile_sp D']
            cases hD2 : D'.dropWhile isPySpace with
            | nil =>
                rw [words_nil]
                rw [show collapseWS false ([] : List Char) = [] from rfl]
                rw [show (r.takeWhile (fun x => !isPySpace x)) ++ ' ' :: ([] : List Char)
                  = (r.takeWhile (fun x => !isPySpace x)) ++ [' '] from rfl]
                rw [stripRight_trailing_space, stripRight_all_nsp _ hallA]
                rfl
            | cons e D2' =>
                have he : isPySpace e = false := by
                  simpa using dropWhile_head_false isPySpace D' e D2' hD2
                have hE : stripRight (collapseWS false (e :: D2')) =
                    stripBoth (collapseWS false (e :: D2')) := by
                  rw [collapseWS_nsp false e D2' he, stripRight_cons_nsp e _ he,
                    stripBoth_cons_nsp e _ he]
                have hEne : stripRight (collapseWS false (e :: D2')) ≠ [] := by
                  rw [collapseWS_nsp false e D2' he, stripRight_cons_nsp e _ he]
                  exact List.cons_ne_nil _ _
                have hmid : stripRight ((r.takeWhile (fun x => !isPySpace x)) ++
                    ' ' :: collapseWS false (e :: D2')) =
                    (r.takeWhile (fun x => !isPySpace x)) ++
                      ' ' :: stripRight (collapseWS false (e :: D2')) := by
                  rw [show ((r.takeWhile (fun x => !isPySpace x)) ++
                      ' ' :: collapseWS false (e :: D2'))
                    = ((r.takeWhile (fun x => !isPySpace x)) ++ [' ']) ++
                      collapseWS false (e :: D2') from by simp,
                    stripRight_append_keep _ _ hEne]
                  simp
                have hlen : D2'.length + 1 < r.length + 1 := by
                  have h3 := length_dropWhile_le (fun x => !isPySpace x) r
                  have h4 := length_dropWhile_le isPySpace D'
                  rw [hD] at h3
                  rw [hD2] at h4
                  simp only [List.length_cons] at h3 h4
                  omega
                rw [hmid, hE, normal_eq_joinWords (e :: D2'), words_cons_nsp e D2' he]
                simp [joinWords]
termination_by l => l.length
decreasing_by
all_goals simp only [List.length_cons]
· exact Nat.lt_succ_of_le (length_dropWhile_le isPySpace _)
· omega

theorem words_joinChars : ∀ ls : List (List Char),
    words (joinChars ls) = (ls.map words).flatten
  | [] => by simp [joinChars, words_nil]
  | [w] => by simp [joinChars]
  | w :: v :: ws => by
      simp only [joinChars]
      rw [words_append_space w (joinChars (v :: ws)), words_joinChars (v :: ws)]
      simp

theorem joinSp_data : ∀ l : List String, (joinSp l).data = joinChars (l.map String.data)
  | [] => rfl
  | [x] => rfl
  | x :: y :: xs => by
      simp only [joinSp, joinChars, List.map_cons]
      rw [String.data_append, String.data_append, joinSp_data (y :: xs)]
      simp

theorem map_words_data : ∀ l : List String,
    (l.map String.data).map words = l.map (fun s => words s.data)
  | [] => rfl
  | x :: xs => by simp [map_words_data xs]

mutual
/-- The words of a node's `pure_text` are, in document order, exactly the
words of its text leaves: the space-join inserts at least one separator
between adjacent leaves and empty contributions vanish. -/
theorem words_pureTextN : ∀ n : HNode,
    words (pureTextN n).data =
      ((specTextLeaves n).map (fun s => words s.data)).flatten
  | .data s _ => by simp [pureTextN, specTextLeaves]
  | .tag n a lv cl ch => by
      simp only [pureTextN, specTextLeaves]
      rw [joinSp_data, words_joinChars, map_words_data]
      exact words_pureTextF ch

theorem words_pureTextF : ∀ ch : HForest,
    ((pureTextF ch).map (fun s => words s.data)).flatten =
      ((specTextLeavesF ch).map (fun s => words s.data)).flatten
  | .nil => rfl
  | .cons x xs => by
      simp only [pureTextF, specTextLeavesF, List.map_cons, List.flatten_cons,
        List.map_append, List.flatten_append]
      rw [words_pureTextN x, words_pureTextF xs]
end

/-- Two strings with the same words have the same normalisation. -/
theorem pyNormalize_eq_of_words (s1 s2 : String) (h : words s1.data = words s2.data) :
    pyNormalize s1 = pyNormalize s2 := by
  unfold pyNormalize
  exact congrArg String.mk (by rw [normal_eq_joinWords, normal_eq_joinWords, h])

/-- C8: `extractText` equals the whitespace-normalised space-join of the
document-order text leaves (a childless `TagNode` contributes the empty
string to the join, which the normalisation erases); in particular the
tree built from the Scenario 1 stream extracts exactly the stored text. -/
theorem pure_text_leaves :
    (∀ t : HTMLTree, HTMLTree.pureText t = pyNormalize (joinSp (specTextLeaves t.root))) ∧
      buildTree scenario1Tokens = .ok scenario1Tree ∧
      HTMLTree.pureText scenario1Tree = "This is a test text." := by
  refine ⟨fun t => ?_, rfl, rfl⟩
  unfold HTMLTree.pureText
  apply pyNormalize_eq_of_words
  rw [words_pureTextN t.root, joinSp_data, words_joinChars, map_words_data]
